import Mathlib

/-!
Verification of the insertion-point locator and merge engine of `mkinit`
(`mkinit/formatting.py`).

Python strings are modelled as Lean `String` (a structure over `List Char`);
the Python string primitives used by the code (`str.strip`, `str.rstrip`,
`str.startswith`, `str.split('\n')`, `'\n'.join`, `str.replace`, `str.find`,
`list.index`) are given explicit executable definitions at the character-list
level.

The statement-boundary scanner `static._locate_ps1_linenos` is an external
collaborator of `formatting.py` (it lives in `static_analysis.py`, not in the
verified source); its result, the ordered list of line numbers at which a new
top-level statement begins, is therefore a parameter `ps1` of the embedded
locator, exactly as the list `ps1_lines` is used by `_find_insert_points`.
-/

namespace Mkinit

/-! ## Python string primitives -/

/-- The characters Python's default `str.strip` / `str.rstrip` remove. -/
def isPySpace (c : Char) : Bool :=
  c = ' ' || c = '\t' || c = '\n' || c = '\r' || c = '\x0b' || c = '\x0c'

/-- `str.strip()` on the character list: drop whitespace on both ends. -/
def pyStripChars (l : List Char) : List Char :=
  ((l.dropWhile isPySpace).reverse.dropWhile isPySpace).reverse

/-- Python `str.strip()`. -/
def pyStrip (s : String) : String := ⟨pyStripChars s.data⟩

/-- `str.rstrip()` on the character list: drop trailing whitespace. -/
def pyRstripChars (l : List Char) : List Char :=
  (l.reverse.dropWhile isPySpace).reverse

/-- Python `str.rstrip()`. -/
def pyRstrip (s : String) : String := ⟨pyRstripChars s.data⟩

/-- Python `s.startswith(p)`. -/
def pyStartswith (s p : String) : Bool := p.data.isPrefixOf s.data

/-- Python `str.split('\n')`: split at every newline, keeping empty pieces;
the empty string yields `[""]`. -/
def splitNlChars : List Char → List (List Char)
  | [] => [[]]
  | c :: rest =>
    match splitNlChars rest with
    | [] => [[c]]
    | p :: ps => if c = '\n' then [] :: p :: ps else (c :: p) :: ps

/-- Join character-list pieces with a separator (`sep.join` in Python). -/
def intercalChars (sep : List Char) : List (List Char) → List Char
  | [] => []
  | [p] => p
  | p :: q :: rest => p ++ sep ++ intercalChars sep (q :: rest)

/-- Python `s.split('\n')` at the `String` level. -/
def pySplitNl (s : String) : List String := (splitNlChars s.data).map (fun l => ⟨l⟩)

/-- Python `'\n'.join(ls)`. -/
def pyJoinNl (ls : List String) : String := ⟨intercalChars ['\n'] (ls.map String.data)⟩

/-- Python `s.replace('\n', repl)`: every newline is replaced by `repl`,
realized as split-on-newline then join with `repl`. -/
def replaceNl (s repl : String) : String :=
  ⟨intercalChars repl.data (splitNlChars s.data)⟩

/-- Python `file.readlines()`-style splitting: pieces keep their trailing
newline, and there is no empty final piece. -/
def splitKeepNlChars : List Char → List (List Char)
  | [] => []
  | c :: rest =>
    match splitKeepNlChars rest with
    | [] => [[c]]
    | p :: ps => if c = '\n' then [c] :: p :: ps else (c :: p) :: ps

/-- `readlines`-style splitting at the `String` level. -/
def splitKeepNl (s : String) : List String := (splitKeepNlChars s.data).map (fun l => ⟨l⟩)

/-- Python `line[:line.find('#')]`: everything before the first `'#'`;
when there is no `'#'`, `find` returns `-1` and the slice is `line[:-1]`. -/
def takeToHash (line : String) : String :=
  match line.data.findIdx? (fun c => c = '#') with
  | some i => ⟨line.data.take i⟩
  | none => ⟨line.data.take (line.data.length - 1)⟩

/-- Python `list.index(x)` as an `Option`: index of the first occurrence. -/
def pyIndex (x : Nat) : List Nat → Option Nat
  | [] => none
  | a :: rest => if a = x then some 0 else (pyIndex x rest).map (· + 1)

/-! ## The locator (`_find_insert_points`) -/

/-- A single quote character, `chr(39)`. -/
def sq : Char := Char.ofNat 39

/-- The `'''` triple-quote pattern. -/
def tripleSq : String := ⟨[sq, sq, sq]⟩

/-- The tuple `implicit_patterns` of `_find_insert_points`. -/
def implicitPatterns : List String :=
  ["from __future__", "__version__", "__submodules__",
   "__external__", "__private__", "__protected__",
   "#", "\"\"\"", tripleSq]

/-- `line.strip().startswith(implicit_patterns)`. -/
def matchesImplicit (line : String) : Bool :=
  implicitPatterns.any (fun p => pyStartswith (pyStrip line) p)

/-- The opening region marker. -/
def openTag : String := "# <AUTOGEN_INIT>"

/-- The closing region marker. -/
def closeTag : String := "# </AUTOGEN_INIT>"

/-- `line.strip().startswith('# <AUTOGEN_INIT>')`. -/
def isOpenTag (line : String) : Bool := pyStartswith (pyStrip line) openTag

/-- `line.strip().startswith('# </AUTOGEN_INIT>')`. -/
def isCloseTag (line : String) : Bool := pyStartswith (pyStrip line) closeTag

/-- The mutable state of the `_find_insert_points` loop. -/
structure LocState where
  startline : Nat
  endline : Nat
  explicitFlag : Bool
  initIndent : String
  skipto : Option Nat
  deriving Repr, DecidableEq

/-- The body of the `for` loop of `_find_insert_points` once the `skipto`
guard has been passed: the implicit-pattern branch (with the
`ValueError`/`IndexError` handling of `ps1_lines.index` and the subscript
`ps1_lines[idx + 1]`), the opening-tag branch and the closing-tag branch,
evaluated in source order on line `n`. -/
def stepEval (ps1 : List Nat) (n : Nat) (line : String) (s : LocState) : LocState :=
  let s1 :=
    if s.explicitFlag = false ∧ matchesImplicit line = true then
      let base := { s with startline := n + 1 }
      match pyIndex n ps1 with
      | none => base
      | some idx =>
        match ps1.get? (idx + 1) with
        | some nxt => { base with skipto := some nxt, startline := nxt }
        | none => { base with startline := base.endline }
    else s
  let s2 :=
    if isOpenTag line = true then
      { s1 with initIndent := takeToHash line, explicitFlag := true, startline := n + 1 }
    else s1
  if s2.explicitFlag = true ∧ isCloseTag line = true then { s2 with endline := n } else s2

/-- One iteration of the `for lineno, line in enumerate(lines)` loop,
including the `skipto` guard at its top. -/
def stepLine (ps1 : List Nat) (n : Nat) (line : String) (s : LocState) : LocState :=
  match s.skipto with
  | some t => if n = t then stepEval ps1 n line { s with skipto := none } else s
  | none => stepEval ps1 n line s

/-- The whole loop, over the lines numbered from `n` upward. -/
def locLoop (ps1 : List Nat) : Nat → List String → LocState → LocState
  | _, [], s => s
  | n, line :: rest, s => locLoop ps1 (n + 1) rest (stepLine ps1 n line s)

/-- The initial state: `startline = 0`, `endline = len(lines)`,
`explicit_flag = False`, `init_indent = ''`, no `skipto`. -/
def startState (lines : List String) : LocState :=
  ⟨0, lines.length, false, "", none⟩

/-- `_find_insert_points(lines)` given the scanner result `ps1`
(`ps1_lines` in the source).  The final `assert startline <= endline`
is modelled by returning `none` when it fails. -/
def findInsertPoints (ps1 : List Nat) (lines : List String) : Option (Nat × Nat × String) :=
  let final := locLoop ps1 0 lines (startState lines)
  if final.startline ≤ final.endline then
    some (final.startline, final.endline, final.initIndent)
  else none

/-! ## The merge (`_indent` and `_insert_autogen_text`) -/

/-- `_indent(text, indent)`:
`new_text = indent + text.replace('\n', '\n' + indent)` followed by
`'\n'.join([line.rstrip() for line in new_text.split('\n')])`. -/
def mkinitIndent (text indent : String) : String :=
  let newText := indent ++ replaceNl text ("\n" ++ indent)
  pyJoinNl ((pySplitNl newText).map pyRstrip)

/-- The text-producing core of `_insert_autogen_text(modpath, initstr)`,
starting from the already-read `lines` of the existing file:
locate the insert points, indent `initstr`, splice it as
`lines[:startline] + [initstr_] + lines[endline:]`, join, and normalize
the end of file with `.rstrip() + '\n'`. -/
def insertAutogenText (ps1 : List Nat) (lines : List String) (initstr : String) :
    Option String :=
  match findInsertPoints ps1 lines with
  | none => none
  | some (startline, endline, initIndent) =>
    let initstrI := mkinitIndent initstr initIndent ++ "\n"
    let newLines := lines.take startline ++ [initstrI] ++ lines.drop endline
    some (pyRstrip (String.join newLines) ++ "\n")

/-! ## Basic facts about the patterns -/

/-- An opening-marker line also matches the implicit pattern `'#'`. -/
theorem open_implies_implicit (line : String) (h : isOpenTag line = true) :
    matchesImplicit line = true := by
  have h1 : openTag.data <+: (pyStrip line).data := List.isPrefixOf_iff_prefix.mp h
  have h2 : ("#" : String).data <+: openTag.data := by decide
  have h3 : pyStartswith (pyStrip line) "#" = true :=
    List.isPrefixOf_iff_prefix.mpr (h2.trans h1)
  exact List.any_eq_true.mpr ⟨"#", by decide, h3⟩

/-- A line cannot be both an opening and a closing marker. -/
theorem open_close_exclusive (line : String) :
    ¬(isOpenTag line = true ∧ isCloseTag line = true) := by
  rintro ⟨ho, hc⟩
  have ho' : openTag.data <+: (pyStrip line).data := List.isPrefixOf_iff_prefix.mp ho
  have hc' : closeTag.data <+: (pyStrip line).data := List.isPrefixOf_iff_prefix.mp hc
  have hlen : openTag.data.length ≤ closeTag.data.length := by decide
  have : openTag.data.isPrefixOf closeTag.data = true :=
    List.isPrefixOf_iff_prefix.mpr (List.prefix_of_prefix_length_le ho' hc' hlen)
  exact absurd this (by decide)

/-! ## Facts about `pyIndex` (Python `list.index`) -/

theorem pyIndex_get? : ∀ (l : List Nat) (x idx : Nat),
    pyIndex x l = some idx → l.get? idx = some x := by
  intro l
  induction l with
  | nil => intro x idx h; simp [pyIndex] at h
  | cons a rest ih =>
    intro x idx h
    unfold pyIndex at h
    by_cases ha : a = x
    · rw [if_pos ha] at h
      cases h
      simp [List.get?, ha]
    · rw [if_neg ha] at h
      obtain ⟨j, hj, rfl⟩ := Option.map_eq_some'.mp h
      simpa [List.get?] using ih x j hj

theorem pyIndex_none (l : List Nat) (x : Nat) (h : x ∉ l) : pyIndex x l = none := by
  induction l with
  | nil => rfl
  | cons a rest ih =>
    simp only [List.mem_cons, not_or] at h
    unfold pyIndex
    rw [if_neg (fun hax => h.1 hax.symm), ih h.2]
    rfl

/-! ## Facts about strictly increasing boundary lists -/

/-- Consecutive entries of a strictly increasing list are increasing. -/
theorem chain'_lt_get?_succ {l : List Nat} (h : List.Chain' (· < ·) l)
    {i a b : Nat} (ha : l.get? i = some a) (hb : l.get? (i + 1) = some b) : a < b := by
  have hp : List.Pairwise (· < ·) l := List.chain'_iff_pairwise.mp h
  rw [List.get?_eq_some] at ha hb
  obtain ⟨hia, ha⟩ := ha
  obtain ⟨hib, hb⟩ := hb
  have := List.pairwise_iff_get.mp hp ⟨i, hia⟩ ⟨i + 1, hib⟩ (by simp)
  rw [ha, hb] at this
  exact this

/-- Entries of a strictly increasing list are monotone in the position. -/
theorem chain'_lt_get?_mono {l : List Nat} (h : List.Chain' (· < ·) l)
    {i j a b : Nat} (hij : i ≤ j) (ha : l.get? i = some a) (hb : l.get? j = some b) :
    a ≤ b := by
  rcases Nat.eq_or_lt_of_le hij with rfl | hlt
  · rw [ha] at hb; exact le_of_eq (Option.some.injEq .. ▸ hb.symm ▸ rfl)
  · have hp : List.Pairwise (· < ·) l := List.chain'_iff_pairwise.mp h
    rw [List.get?_eq_some] at ha hb
    obtain ⟨hia, ha⟩ := ha
    obtain ⟨hib, hb⟩ := hb
    have := List.pairwise_iff_get.mp hp ⟨i, hia⟩ ⟨j, hib⟩ hlt
    rw [ha, hb] at this
    exact le_of_lt this

/-- In a strictly increasing list, a smaller value sits at a smaller position. -/
theorem chain'_lt_pos_lt {l : List Nat} (h : List.Chain' (· < ·) l)
    {i j a b : Nat} (ha : l.get? i = some a) (hb : l.get? j = some b) (hab : a < b) :
    i < j := by
  by_contra hc
  exact absurd (chain'_lt_get?_mono h (Nat.le_of_not_lt hc) hb ha) (Nat.not_le_of_lt hab)

/-! ## Last / absence of marker lines in a segment -/

/-- The last line satisfying `tag` in a segment whose first line has number
`n`, together with its line number. -/
def lastTagAt (tag : String → Bool) : Nat → List String → Option (Nat × String)
  | _, [] => none
  | n, l :: rest =>
    match lastTagAt tag (n + 1) rest with
    | some r => some r
    | none => if tag l = true then some (n, l) else none

theorem lastTagAt_none (tag : String → Bool) :
    ∀ (L : List String) (n : Nat), (∀ l ∈ L, tag l = false) → lastTagAt tag n L = none := by
  intro L
  induction L with
  | nil => intro n _; rfl
  | cons l rest ih =>
    intro n h
    have h1 : tag l = false := h l (List.mem_cons_self l rest)
    have h2 : lastTagAt tag (n + 1) rest = none :=
      ih (n + 1) (fun x hx => h x (List.mem_cons_of_mem l hx))
    unfold lastTagAt
    rw [h2]
    simp [h1]

theorem lastTagAt_ge (tag : String → Bool) :
    ∀ (L : List String) (n k : Nat) (lk : String),
      lastTagAt tag n L = some (k, lk) → n ≤ k := by
  intro L
  induction L with
  | nil => intro n k lk h; simp [lastTagAt] at h
  | cons l rest ih =>
    intro n k lk h
    unfold lastTagAt at h
    rcases hr : lastTagAt tag (n + 1) rest with _ | r
    · rw [hr] at h
      by_cases ht : tag l = true
      · rw [if_pos ht] at h
        cases h
        exact Nat.le_refl n
      · rw [if_neg ht] at h; cases h
    · rw [hr] at h
      cases h
      exact Nat.le_of_succ_le (ih (n + 1) k lk hr)

theorem lastTagAt_append (tag : String → Bool) :
    ∀ (a b : List String) (n : Nat),
      lastTagAt tag n (a ++ b) =
        match lastTagAt tag (n + a.length) b with
        | some r => some r
        | none => lastTagAt tag n a := by
  intro a
  induction a with
  | nil =>
    intro b n
    simp only [List.nil_append, List.length_nil, Nat.add_zero]
    rcases h : lastTagAt tag n b with _ | r
    · simp [lastTagAt]
    · simp
  | cons l a ih =>
    intro b n
    have hL : lastTagAt tag n ((l :: a) ++ b) =
        match lastTagAt tag (n + 1) (a ++ b) with
        | some r => some r
        | none => if tag l = true then some (n, l) else none := rfl
    have hR : lastTagAt tag n (l :: a) =
        match lastTagAt tag (n + 1) a with
        | some r => some r
        | none => if tag l = true then some (n, l) else none := rfl
    rw [hL, hR, ih b (n + 1)]
    have harith : (n + 1) + a.length = n + (l :: a).length := by
      simp only [List.length_cons]
      omega
    rw [harith]
    rcases hb : lastTagAt tag (n + (l :: a).length) b with _ | r
    · rcases ha : lastTagAt tag (n + 1) a with _ | r' <;> simp
    · simp

/-! ## Decomposing the loop -/

theorem locLoop_append (ps1 : List Nat) :
    ∀ (a b : List String) (n : Nat) (s : LocState),
      locLoop ps1 n (a ++ b) s = locLoop ps1 (n + a.length) b (locLoop ps1 n a s) := by
  intro a
  induction a with
  | nil => intro b n s; simp [locLoop]
  | cons l rest ih =>
    intro b n s
    show locLoop ps1 (n + 1) (rest ++ b) (stepLine ps1 n l s) =
      locLoop ps1 (n + (rest.length + 1)) b (locLoop ps1 (n + 1) rest (stepLine ps1 n l s))
    rw [ih b (n + 1) (stepLine ps1 n l s)]
    congr 1
    omega

/-- Once explicit mode is active and no skip is pending, the remainder of the
scan is simple: the implicit branch is disabled, every opening marker line
resets `startline` (and recaptures the indent), every closing marker line
resets `endline`, and nothing else changes.  Hence the final values come from
the LAST marker lines of the remainder. -/
theorem locLoop_explicit (ps1 : List Nat) :
    ∀ (rest : List String) (n : Nat) (s : LocState),
      s.explicitFlag = true → s.skipto = none →
      locLoop ps1 n rest s =
        { startline :=
            match lastTagAt isOpenTag n rest with
            | some (k, _) => k + 1
            | none => s.startline,
          endline :=
            match lastTagAt isCloseTag n rest with
            | some (k, _) => k
            | none => s.endline,
          explicitFlag := true,
          initIndent :=
            match lastTagAt isOpenTag n rest with
            | some (_, lk) => takeToHash lk
            | none => s.initIndent,
          skipto := none } := by
  intro rest
  induction rest with
  | nil =>
    intro n s hex hsk
    show s = _
    rw [← hex, ← hsk]
    simp [lastTagAt]
  | cons l rest ih =>
    intro n s hex hsk
    have hloc : locLoop ps1 n (l :: rest) s = locLoop ps1 (n + 1) rest (stepLine ps1 n l s) := rfl
    by_cases hol : isOpenTag l = true
    · have hcl : isCloseTag l = false := by
        rcases hc : isCloseTag l with _ | _
        · rfl
        · exact absurd ⟨hol, hc⟩ (open_close_exclusive l)
      have hstep : stepLine ps1 n l s =
          ⟨n + 1, s.endline, true, takeToHash l, s.skipto⟩ := by
        simp [stepLine, hsk, stepEval, hex, hol, hcl]
      have hih := ih (n + 1) ⟨n + 1, s.endline, true, takeToHash l, s.skipto⟩ rfl hsk
      rw [hloc, hstep, hih]
      rcases hLO : lastTagAt isOpenTag (n + 1) rest with _ | ⟨k, lk⟩ <;>
        rcases hLC : lastTagAt isCloseTag (n + 1) rest with _ | ⟨m, lm⟩ <;>
          simp [lastTagAt, hLO, hLC, hol, hcl]
    · by_cases hcl : isCloseTag l = true
      · have hstep : stepLine ps1 n l s =
            ⟨s.startline, n, s.explicitFlag, s.initIndent, s.skipto⟩ := by
          simp [stepLine, hsk, stepEval, hex, hol, hcl]
        have hih := ih (n + 1)
          ⟨s.startline, n, s.explicitFlag, s.initIndent, s.skipto⟩ hex hsk
        rw [hloc, hstep, hih]
        rcases hLO : lastTagAt isOpenTag (n + 1) rest with _ | ⟨k, lk⟩ <;>
          rcases hLC : lastTagAt isCloseTag (n + 1) rest with _ | ⟨m, lm⟩ <;>
            simp [lastTagAt, hLO, hLC, hol, hcl]
      · have hstep : stepLine ps1 n l s = s := by
          simp [stepLine, hsk, stepEval, hex, hol, hcl]
        have hih := ih (n + 1) s hex hsk
        rw [hloc, hstep, hih]
        rcases hLO : lastTagAt isOpenTag (n + 1) rest with _ | ⟨k, lk⟩ <;>
          rcases hLC : lastTagAt isCloseTag (n + 1) rest with _ | ⟨m, lm⟩ <;>
            simp [lastTagAt, hLO, hLC, hol, hcl]

/-- If no line of a segment matches an implicit pattern (which also rules out
opening markers, whose text begins with `'#'`), the scan does nothing. -/
theorem locLoop_noMatch (ps1 : List Nat) :
    ∀ (rest : List String) (n : Nat) (s : LocState),
      (∀ l ∈ rest, matchesImplicit l = false) →
      s.explicitFlag = false → s.skipto = none →
      locLoop ps1 n rest s = s := by
  intro rest
  induction rest with
  | nil => intro n s _ _ _; rfl
  | cons l rest ih =>
    intro n s h hex hsk
    have h1 : matchesImplicit l = false := h l (List.mem_cons_self l rest)
    have hol : isOpenTag l = false := by
      rcases ho : isOpenTag l with _ | _
      · rfl
      · rw [open_implies_implicit l ho] at h1; cases h1
    have hstep : stepLine ps1 n l s = s := by
      simp [stepLine, hsk, stepEval, hex, h1, hol]
    show locLoop ps1 (n + 1) rest (stepLine ps1 n l s) = s
    rw [hstep]
    exact ih (n + 1) s (fun x hx => h x (List.mem_cons_of_mem l hx)) hex hsk

/-- A file none of whose lines matches an implicit pattern is located with
the defaults: replace everything. -/
theorem findInsertPoints_noMatch (ps1 : List Nat) (lines : List String)
    (h : ∀ l ∈ lines, matchesImplicit l = false) :
    findInsertPoints ps1 lines = some (0, lines.length, "") := by
  unfold findInsertPoints
  rw [locLoop_noMatch ps1 lines 0 (startState lines) h rfl rfl]
  simp [startState]

/-- One evaluated line, while explicit mode is off, the line is not an
opening marker, and the boundary list is strictly increasing and never jumps
from before `bound` to beyond it: the state keeps its mode, `endline` and
indent, and any pending skip stays within `bound`. -/
theorem stepEval_prefix (ps1 : List Nat) (bound : Nat)
    (hchain : List.Chain' (· < ·) ps1)
    (hjump : ∀ idx a b, ps1.get? idx = some a → ps1.get? (idx + 1) = some b →
      a < bound → b ≤ bound)
    (n : Nat) (hn : n < bound) (l : String) (hol : isOpenTag l = false)
    (s : LocState) (hex : s.explicitFlag = false) (hsk : s.skipto = none) :
    (stepEval ps1 n l s).explicitFlag = false ∧
    (stepEval ps1 n l s).endline = s.endline ∧
    (stepEval ps1 n l s).initIndent = s.initIndent ∧
    ((stepEval ps1 n l s).skipto = none ∨
      ∃ t, (stepEval ps1 n l s).skipto = some t ∧ n + 1 ≤ t ∧ t ≤ bound) := by
  by_cases hcond : (s.explicitFlag = false ∧ matchesImplicit l = true)
  · rcases hpi : pyIndex n ps1 with _ | idx
    · have : stepEval ps1 n l s = ⟨n + 1, s.endline, s.explicitFlag, s.initIndent, s.skipto⟩ := by
        simp [stepEval, hcond, hol, hex, hpi]
      rw [this]
      exact ⟨hex, rfl, rfl, Or.inl hsk⟩
    · rcases hg : ps1.get? (idx + 1) with _ | b
      · have hg2 : ps1[idx + 1]? = none := by simpa using hg
        have : stepEval ps1 n l s =
            ⟨s.endline, s.endline, s.explicitFlag, s.initIndent, s.skipto⟩ := by
          simp [stepEval, hcond, hol, hex, hpi, hg2]
        rw [this]
        exact ⟨hex, rfl, rfl, Or.inl hsk⟩
      · have hg2 : ps1[idx + 1]? = some b := by simpa using hg
        have hb : stepEval ps1 n l s =
            ⟨b, s.endline, s.explicitFlag, s.initIndent, some b⟩ := by
          simp [stepEval, hcond, hol, hex, hpi, hg2]
        have hgn : ps1.get? idx = some n := pyIndex_get? ps1 n idx hpi
        have hnb : n < b := chain'_lt_get?_succ hchain hgn hg
        have hbb : b ≤ bound := hjump idx n b hgn hg hn
        rw [hb]
        exact ⟨hex, rfl, rfl, Or.inr ⟨b, rfl, hnb, hbb⟩⟩
  · have : stepEval ps1 n l s = s := by
      simp only [stepEval, if_neg hcond, hol]
      simp [hex, hol]
    rw [this]
    exact ⟨hex, rfl, rfl, Or.inl hsk⟩

/-- Scanning a segment of lines that contains no opening marker, while
explicit mode is off: the mode, `endline` and indent are unchanged, and any
pending skip at the end of the segment lies between the end of the segment
and `bound`.  (`bound` is in practice the line number of the first line after
the segment that must still be evaluated.) -/
theorem locLoop_prefix (ps1 : List Nat) (bound : Nat)
    (hchain : List.Chain' (· < ·) ps1)
    (hjump : ∀ idx a b, ps1.get? idx = some a → ps1.get? (idx + 1) = some b →
      a < bound → b ≤ bound) :
    ∀ (rest : List String) (n : Nat) (s : LocState),
      (∀ l ∈ rest, isOpenTag l = false) →
      s.explicitFlag = false →
      (s.skipto = none ∨ ∃ t, s.skipto = some t ∧ n ≤ t ∧ t ≤ bound) →
      n + rest.length ≤ bound →
      (locLoop ps1 n rest s).explicitFlag = false ∧
      (locLoop ps1 n rest s).endline = s.endline ∧
      (locLoop ps1 n rest s).initIndent = s.initIndent ∧
      ((locLoop ps1 n rest s).skipto = none ∨
        ∃ t, (locLoop ps1 n rest s).skipto = some t ∧ n + rest.length ≤ t ∧ t ≤ bound) := by
  intro rest
  induction rest with
  | nil =>
    intro n s _ hex hskip _
    exact ⟨hex, rfl, rfl, by simpa using hskip⟩
  | cons l rest ih =>
    intro n s h hex hskip hbnd
    have hn : n < bound := by
      simp only [List.length_cons] at hbnd
      omega
    have hol : isOpenTag l = false := h l (List.mem_cons_self l rest)
    have htail : ∀ x ∈ rest, isOpenTag x = false :=
      fun x hx => h x (List.mem_cons_of_mem l hx)
    have hbnd' : (n + 1) + rest.length ≤ bound := by
      simp only [List.length_cons] at hbnd
      omega
    have hgoal : ∀ s' : LocState, stepLine ps1 n l s = s' →
        s'.explicitFlag = false → s'.endline = s.endline → s'.initIndent = s.initIndent →
        (s'.skipto = none ∨ ∃ t, s'.skipto = some t ∧ n + 1 ≤ t ∧ t ≤ bound) →
        (locLoop ps1 n (l :: rest) s).explicitFlag = false ∧
        (locLoop ps1 n (l :: rest) s).endline = s.endline ∧
        (locLoop ps1 n (l :: rest) s).initIndent = s.initIndent ∧
        ((locLoop ps1 n (l :: rest) s).skipto = none ∨
          ∃ t, (locLoop ps1 n (l :: rest) s).skipto = some t ∧
            n + (l :: rest).length ≤ t ∧ t ≤ bound) := by
      intro s' hs' hex' hend' hind' hskip'
      have hloc : locLoop ps1 n (l :: rest) s = locLoop ps1 (n + 1) rest s' := by
        show locLoop ps1 (n + 1) rest (stepLine ps1 n l s) = _
        rw [hs']
      obtain ⟨c1, c2, c3, c4⟩ := ih (n + 1) s' htail hex' hskip' hbnd'
      rw [hloc]
      refine ⟨c1, hend' ▸ c2, hind' ▸ c3, ?_⟩
      rcases c4 with c4 | ⟨t, ht, h1, h2⟩
      · exact Or.inl c4
      · refine Or.inr ⟨t, ht, ?_, h2⟩
        simp only [List.length_cons]
        omega
    rcases hskip with hsk | ⟨t, hsk, hnt, htb⟩
    · obtain ⟨e1, e2, e3, e4⟩ :=
        stepEval_prefix ps1 bound hchain hjump n hn l hol s hex hsk
      exact hgoal (stepEval ps1 n l s) (by simp [stepLine, hsk]) e1 e2 e3 e4
    · by_cases hnt' : n = t
      · subst hnt'
        have hsk0 : (⟨s.startline, s.endline, s.explicitFlag, s.initIndent, none⟩ :
            LocState).skipto = none := rfl
        obtain ⟨e1, e2, e3, e4⟩ :=
          stepEval_prefix ps1 bound hchain hjump n hn l hol
            ⟨s.startline, s.endline, s.explicitFlag, s.initIndent, none⟩ hex hsk0
        refine hgoal (stepEval ps1 n l
          ⟨s.startline, s.endline, s.explicitFlag, s.initIndent, none⟩) ?_ e1 e2 e3 e4
        simp [stepLine, hsk]
      · refine hgoal s ?_ hex rfl rfl (Or.inr ⟨t, hsk, by omega, htb⟩)
        simp [stepLine, hsk, hnt']

/-- One evaluated line with no opening marker, explicit mode off, boundaries
strictly increasing and bounded by the file length `L`: `endline` stays `L`
and `startline` stays within `[m, L]` once every assignment source is at
least `m` (the current line number `n` being at least `m`). -/
theorem stepEval_bound (ps1 : List Nat) (L m : Nat)
    (hchain : List.Chain' (· < ·) ps1)
    (hmemL : ∀ k ∈ ps1, k < L) (hmL : m ≤ L)
    (n : Nat) (hn : n < L) (hmn : m ≤ n) (l : String) (hol : isOpenTag l = false)
    (s : LocState) (hex : s.explicitFlag = false) (hsk : s.skipto = none)
    (hend : s.endline = L) (hm1 : m ≤ s.startline) (hm2 : s.startline ≤ L) :
    (stepEval ps1 n l s).explicitFlag = false ∧
    (stepEval ps1 n l s).endline = L ∧
    m ≤ (stepEval ps1 n l s).startline ∧
    (stepEval ps1 n l s).startline ≤ L ∧
    (∀ t, (stepEval ps1 n l s).skipto = some t → m ≤ t) := by
  by_cases hcond : (s.explicitFlag = false ∧ matchesImplicit l = true)
  · rcases hpi : pyIndex n ps1 with _ | idx
    · have hs : stepEval ps1 n l s =
          ⟨n + 1, s.endline, s.explicitFlag, s.initIndent, s.skipto⟩ := by
        simp [stepEval, hcond, hol, hex, hpi]
      rw [hs]
      refine ⟨hex, hend, ?_, ?_, ?_⟩
      · show m ≤ n + 1
        omega
      · show n + 1 ≤ L
        omega
      · intro t ht
        rw [hsk] at ht
        cases ht
    · rcases hg : ps1.get? (idx + 1) with _ | b
      · have hg2 : ps1[idx + 1]? = none := by simpa using hg
        have hs : stepEval ps1 n l s =
            ⟨s.endline, s.endline, s.explicitFlag, s.initIndent, s.skipto⟩ := by
          simp [stepEval, hcond, hol, hex, hpi, hg2]
        rw [hs]
        refine ⟨hex, hend, ?_, ?_, ?_⟩
        · show m ≤ s.endline
          omega
        · show s.endline ≤ L
          omega
        · intro t ht
          rw [hsk] at ht
          cases ht
      · have hg2 : ps1[idx + 1]? = some b := by simpa using hg
        have hs : stepEval ps1 n l s =
            ⟨b, s.endline, s.explicitFlag, s.initIndent, some b⟩ := by
          simp [stepEval, hcond, hol, hex, hpi, hg2]
        have hgn : ps1.get? idx = some n := pyIndex_get? ps1 n idx hpi
        have hnb : n < b := chain'_lt_get?_succ hchain hgn hg
        have hbL : b < L := hmemL b (List.get?_mem hg)
        rw [hs]
        refine ⟨hex, hend, ?_, ?_, ?_⟩
        · show m ≤ b
          omega
        · show b ≤ L
          omega
        · intro t ht
          cases ht
          omega
  · have hs : stepEval ps1 n l s = s := by
      simp only [stepEval, if_neg hcond, hol]
      simp [hex, hol]
    rw [hs]
    refine ⟨hex, hend, hm1, hm2, ?_⟩
    intro t ht
    rw [hsk] at ht
    cases ht

/-- Scanning a suffix of the file (no opening markers, explicit mode off,
strictly increasing in-file boundaries): `endline` keeps the file length `L`
and `startline` never drops below `m`, provided it starts at least `m`, any
pending skip target is at least `m`, and, when no skip is pending, the next
line to evaluate is at least `m`. -/
theorem locLoop_bound (ps1 : List Nat) (L m : Nat)
    (hchain : List.Chain' (· < ·) ps1)
    (hmemL : ∀ k ∈ ps1, k < L) (hmL : m ≤ L) :
    ∀ (rest : List String) (n : Nat) (s : LocState),
      (∀ l ∈ rest, isOpenTag l = false) →
      s.explicitFlag = false → s.endline = L →
      m ≤ s.startline → s.startline ≤ L →
      (s.skipto = none → m ≤ n) → (∀ t, s.skipto = some t → m ≤ t) →
      n + rest.length ≤ L →
      (locLoop ps1 n rest s).endline = L ∧
      m ≤ (locLoop ps1 n rest s).startline ∧
      (locLoop ps1 n rest s).startline ≤ L := by
  intro rest
  induction rest with
  | nil => intro n s _ _ hend hm1 hm2 _ _ _; exact ⟨hend, hm1, hm2⟩
  | cons l rest ih =>
    intro n s h hex hend hm1 hm2 hskN hskS hbnd
    have hn : n < L := by
      simp only [List.length_cons] at hbnd
      omega
    have hol : isOpenTag l = false := h l (List.mem_cons_self l rest)
    have htail : ∀ x ∈ rest, isOpenTag x = false :=
      fun x hx => h x (List.mem_cons_of_mem l hx)
    have hbnd' : (n + 1) + rest.length ≤ L := by
      simp only [List.length_cons] at hbnd
      omega
    rcases hsk : s.skipto with _ | t
    · have hmn : m ≤ n := hskN hsk
      obtain ⟨e1, e2, e3, e4, e5⟩ :=
        stepEval_bound ps1 L m hchain hmemL hmL n hn hmn l hol s hex hsk hend hm1 hm2
      have hstep : stepLine ps1 n l s = stepEval ps1 n l s := by
        simp [stepLine, hsk]
      show (locLoop ps1 (n + 1) rest (stepLine ps1 n l s)).endline = L ∧
        m ≤ (locLoop ps1 (n + 1) rest (stepLine ps1 n l s)).startline ∧
        (locLoop ps1 (n + 1) rest (stepLine ps1 n l s)).startline ≤ L
      rw [hstep]
      exact ih (n + 1) (stepEval ps1 n l s) htail e1 e2 e3 e4 (fun _ => by omega) e5 hbnd'
    · have hmt : m ≤ t := hskS t hsk
      by_cases hnt : n = t
      · subst hnt
        have hmn : m ≤ n := hmt
        have hsk0 : (⟨s.startline, s.endline, s.explicitFlag, s.initIndent, none⟩ :
            LocState).skipto = none := rfl
        obtain ⟨e1, e2, e3, e4, e5⟩ :=
          stepEval_bound ps1 L m hchain hmemL hmL n hn hmn l hol
            ⟨s.startline, s.endline, s.explicitFlag, s.initIndent, none⟩
            hex hsk0 hend hm1 hm2
        have hstep : stepLine ps1 n l s =
            stepEval ps1 n l ⟨s.startline, s.endline, s.explicitFlag, s.initIndent, none⟩ := by
          simp [stepLine, hsk]
        show (locLoop ps1 (n + 1) rest (stepLine ps1 n l s)).endline = L ∧
          m ≤ (locLoop ps1 (n + 1) rest (stepLine ps1 n l s)).startline ∧
          (locLoop ps1 (n + 1) rest (stepLine ps1 n l s)).startline ≤ L
        rw [hstep]
        exact ih (n + 1) _ htail e1 e2 e3 e4 (fun _ => by omega) e5 hbnd'
      · have hstep : stepLine ps1 n l s = s := by
          simp [stepLine, hsk, hnt]
        show (locLoop ps1 (n + 1) rest (stepLine ps1 n l s)).endline = L ∧
          m ≤ (locLoop ps1 (n + 1) rest (stepLine ps1 n l s)).startline ∧
          (locLoop ps1 (n + 1) rest (stepLine ps1 n l s)).startline ≤ L
        rw [hstep]
        exact ih (n + 1) s htail hex hend hm1 hm2
          (fun hc => by rw [hc] at hsk; cases hsk) hskS hbnd'

/-! ## Facts about splitting, joining and stripping -/

theorem splitNlChars_ne_nil : ∀ l : List Char, splitNlChars l ≠ [] := by
  intro l
  cases l with
  | nil => simp [splitNlChars]
  | cons c rest =>
    unfold splitNlChars
    rcases h : splitNlChars rest with _ | ⟨p, ps⟩
    · simp
    · by_cases hc : c = '\n' <;> simp [hc]

theorem splitNlChars_pieces : ∀ (l : List Char) (p : List Char),
    p ∈ splitNlChars l → '\n' ∉ p := by
  intro l
  induction l with
  | nil =>
    intro p hp
    simp [splitNlChars] at hp
    simp [hp]
  | cons c rest ih =>
    intro p hp
    rcases h : splitNlChars rest with _ | ⟨q, qs⟩
    · exact absurd h (splitNlChars_ne_nil rest)
    · have hrw : splitNlChars (c :: rest) =
          if c = '\n' then [] :: q :: qs else (c :: q) :: qs := by
        show (match splitNlChars rest with
          | [] => [[c]]
          | p :: ps => if c = '\n' then [] :: p :: ps else (c :: p) :: ps) = _
        rw [h]
      rw [hrw] at hp
      by_cases hc : c = '\n'
      · rw [if_pos hc] at hp
        rcases List.mem_cons.mp hp with rfl | hp'
        · simp
        · exact ih p (by rw [h]; exact hp')
      · rw [if_neg hc] at hp
        rcases List.mem_cons.mp hp with rfl | hp'
        · intro hmem
          rcases List.mem_cons.mp hmem with rfl | hmem'
          · exact hc rfl
          · exact ih q (by rw [h]; exact List.mem_cons_self q qs) hmem'
        · exact ih p (by rw [h]; exact List.mem_cons_of_mem q hp')

theorem splitNlChars_noNl (l : List Char) (h : '\n' ∉ l) : splitNlChars l = [l] := by
  induction l with
  | nil => rfl
  | cons c rest ih =>
    simp only [List.mem_cons, not_or] at h
    show (match splitNlChars rest with
      | [] => [[c]]
      | p :: ps => if c = '\n' then [] :: p :: ps else (c :: p) :: ps) = [c :: rest]
    rw [ih h.2]
    show (if c = '\n' then [] :: rest :: [] else (c :: rest) :: []) = [c :: rest]
    rw [if_neg (fun hc => h.1 hc.symm)]

theorem splitNlChars_append_cons (a rest : List Char) (ha : '\n' ∉ a) :
    splitNlChars (a ++ '\n' :: rest) = a :: splitNlChars rest := by
  induction a with
  | nil =>
    show (match splitNlChars rest with
      | [] => [['\n']]
      | p :: ps =>
        if ('\n' : Char) = '\n' then [] :: p :: ps else ('\n' :: p) :: ps) =
      [] :: splitNlChars rest
    rcases h : splitNlChars rest with _ | ⟨p, ps⟩
    · exact absurd h (splitNlChars_ne_nil rest)
    · simp
  | cons c a ih =>
    simp only [List.mem_cons, not_or] at ha
    show (match splitNlChars (a ++ '\n' :: rest) with
      | [] => [[c]]
      | p :: ps => if c = '\n' then [] :: p :: ps else (c :: p) :: ps) =
      (c :: a) :: splitNlChars rest
    rw [ih ha.2]
    show (if c = '\n' then [] :: a :: splitNlChars rest
      else (c :: a) :: splitNlChars rest) = (c :: a) :: splitNlChars rest
    rw [if_neg (fun hc => ha.1 hc.symm)]

theorem splitNlChars_intercal : ∀ parts : List (List Char), parts ≠ [] →
    (∀ p ∈ parts, '\n' ∉ p) →
    splitNlChars (intercalChars ['\n'] parts) = parts := by
  intro parts
  induction parts with
  | nil => intro h _; exact absurd rfl h
  | cons p parts ih =>
    intro _ hp
    rcases parts with _ | ⟨q, parts'⟩
    · exact splitNlChars_noNl p (hp p (List.mem_cons_self p []))
    · have hassoc : intercalChars ['\n'] (p :: q :: parts') =
          p ++ '\n' :: intercalChars ['\n'] (q :: parts') := by
        show (p ++ ['\n']) ++ intercalChars ['\n'] (q :: parts') = _
        rw [List.append_assoc]
        rfl
      rw [hassoc, splitNlChars_append_cons p _ (hp p (List.mem_cons_self p _)),
        ih (by simp) (fun x hx => hp x (List.mem_cons_of_mem p hx))]

theorem indent_intercal (ind : List Char) : ∀ parts : List (List Char), parts ≠ [] →
    ind ++ intercalChars ('\n' :: ind) parts =
      intercalChars ['\n'] (parts.map (fun p => ind ++ p)) := by
  intro parts
  induction parts with
  | nil => intro h; exact absurd rfl h
  | cons p parts ih =>
    intro _
    rcases parts with _ | ⟨q, parts'⟩
    · rfl
    · show ind ++ (p ++ ('\n' :: ind) ++ intercalChars ('\n' :: ind) (q :: parts')) =
        (ind ++ p) ++ ['\n'] ++ intercalChars ['\n'] ((q :: parts').map (fun p => ind ++ p))
      rw [← ih (by simp)]
      simp [List.append_assoc]

theorem rstripChars_subset {l : List Char} {c : Char} (h : c ∈ pyRstripChars l) : c ∈ l := by
  unfold pyRstripChars at h
  rw [List.mem_reverse] at h
  have := (@List.dropWhile_sublist _ l.reverse isPySpace).mem h
  rwa [List.mem_reverse] at this

theorem rstripChars_noNl {l : List Char} (h : '\n' ∉ l) : '\n' ∉ pyRstripChars l :=
  fun hc => h (rstripChars_subset hc)

theorem dropWhile_dropWhile (p : Char → Bool) :
    ∀ l : List Char, List.dropWhile p (List.dropWhile p l) = List.dropWhile p l := by
  intro l
  induction l with
  | nil => rfl
  | cons c rest ih =>
    by_cases hc : p c = true
    · simp [List.dropWhile_cons, hc, ih]
    · simp [List.dropWhile_cons, hc]

theorem rstripChars_idem (l : List Char) :
    pyRstripChars (pyRstripChars l) = pyRstripChars l := by
  unfold pyRstripChars
  rw [List.reverse_reverse, dropWhile_dropWhile]

/-- `_indent` acts linewise: every line of the output block is the indent
prefix plus the corresponding line of the content, right-stripped of
trailing whitespace (this is what removes whitespace from blank lines). -/
theorem mkinitIndent_lines (text ind : String) (hind : '\n' ∉ ind.data) :
    pySplitNl (mkinitIndent text ind) =
      (pySplitNl text).map (fun l => pyRstrip (ind ++ l)) := by
  have hparts := splitNlChars_pieces text.data
  have hne := splitNlChars_ne_nil text.data
  have hdata : (ind ++ replaceNl text ("\n" ++ ind)).data =
      intercalChars ['\n'] ((splitNlChars text.data).map (fun p => ind.data ++ p)) := by
    rw [String.data_append]
    show ind.data ++ intercalChars ("\n" ++ ind).data (splitNlChars text.data) = _
    have : ("\n" ++ ind).data = '\n' :: ind.data := by
      rw [String.data_append]
      rfl
    rw [this, indent_intercal ind.data (splitNlChars text.data) hne]
  have hsplit1 : splitNlChars (ind ++ replaceNl text ("\n" ++ ind)).data =
      (splitNlChars text.data).map (fun p => ind.data ++ p) := by
    rw [hdata]
    refine splitNlChars_intercal _ (by simpa using hne) ?_
    intro p hp
    obtain ⟨q, hq, rfl⟩ := List.mem_map.mp hp
    intro hmem
    rcases List.mem_append.mp hmem with hmem | hmem
    · exact hind hmem
    · exact hparts q hq hmem
  have hjoin : (mkinitIndent text ind).data =
      intercalChars ['\n']
        ((splitNlChars text.data).map (fun p => pyRstripChars (ind.data ++ p))) := by
    show (pyJoinNl ((pySplitNl (ind ++ replaceNl text ("\n" ++ ind))).map pyRstrip)).data = _
    unfold pyJoinNl pySplitNl
    rw [hsplit1]
    simp only [List.map_map]
    rfl
  have hsplit2 : splitNlChars (mkinitIndent text ind).data =
      (splitNlChars text.data).map (fun p => pyRstripChars (ind.data ++ p)) := by
    rw [hjoin]
    refine splitNlChars_intercal _ (by simpa using hne) ?_
    intro p hp
    obtain ⟨q, hq, rfl⟩ := List.mem_map.mp hp
    refine rstripChars_noNl ?_
    intro hmem
    rcases List.mem_append.mp hmem with hmem | hmem
    · exact hind hmem
    · exact hparts q hq hmem
  unfold pySplitNl
  rw [hsplit2]
  simp only [List.map_map]
  refine List.map_congr_left ?_
  intro p _
  show (⟨pyRstripChars (ind.data ++ p)⟩ : String) = pyRstrip (ind ++ ⟨p⟩)
  unfold pyRstrip
  have hd : (ind ++ (⟨p⟩ : String)).data = ind.data ++ p := by
    rw [String.data_append]
  rw [hd]

/-- Unfolding of the merge once the insert points are known. -/
theorem insertAutogenText_eq (ps1 : List Nat) (lines : List String) (g : String)
    (st en : Nat) (ind : String)
    (h : findInsertPoints ps1 lines = some (st, en, ind)) :
    insertAutogenText ps1 lines g =
      some (pyRstrip (String.join
        (lines.take st ++ [mkinitIndent g ind ++ "\n"] ++ lines.drop en)) ++ "\n") := by
  unfold insertAutogenText
  rw [h]

/-- Reaching the first opening marker: if no line before `lF` is an opening
marker, the boundary list is strictly increasing, never jumps from before the
marker line to beyond it, and does not contain the marker line itself, then
the scan arrives at `lF`, evaluates it, and continues after it in explicit
mode with `startline` just after the marker and the marker's indent. -/
theorem locLoop_open_reach (ps1 : List Nat) (pre : List String) (lF : String)
    (suf : List String)
    (hchain : List.Chain' (· < ·) ps1)
    (hjump : ∀ idx a b, ps1.get? idx = some a → ps1.get? (idx + 1) = some b →
      a < pre.length → b ≤ pre.length)
    (hmem : pyIndex pre.length ps1 = none)
    (hpre : ∀ l ∈ pre, isOpenTag l = false) (hF : isOpenTag lF = true) :
    locLoop ps1 0 (pre ++ lF :: suf) (startState (pre ++ lF :: suf)) =
      locLoop ps1 (pre.length + 1) suf
        ⟨pre.length + 1, (pre ++ lF :: suf).length, true, takeToHash lF, none⟩ := by
  have happ := locLoop_append ps1 pre (lF :: suf) 0 (startState (pre ++ lF :: suf))
  rw [happ]
  set sPre := locLoop ps1 0 pre (startState (pre ++ lF :: suf)) with hsPre
  obtain ⟨p1, p2, p3, p4⟩ :=
    locLoop_prefix ps1 pre.length hchain hjump pre 0
      (startState (pre ++ lF :: suf)) hpre rfl (Or.inl rfl) (by omega)
  rw [← hsPre] at p1 p2 p3 p4
  have hCl : isCloseTag lF = false := by
    rcases hc : isCloseTag lF with _ | _
    · rfl
    · exact absurd ⟨hF, hc⟩ (open_close_exclusive lF)
  have hIm : matchesImplicit lF = true := open_implies_implicit lF hF
  have hEval : ∀ s : LocState, s.explicitFlag = false → s.skipto = none →
      s.endline = (pre ++ lF :: suf).length →
      stepEval ps1 pre.length lF s =
        ⟨pre.length + 1, (pre ++ lF :: suf).length, true, takeToHash lF, none⟩ := by
    intro s hex hsk hend
    have : stepEval ps1 pre.length lF s =
        ⟨pre.length + 1, s.endline, true, takeToHash lF, s.skipto⟩ := by
      simp [stepEval, hex, hIm, hmem, hF, hCl]
    rw [this, hend, hsk]
  have hstep : stepLine ps1 pre.length lF sPre =
      ⟨pre.length + 1, (pre ++ lF :: suf).length, true, takeToHash lF, none⟩ := by
    rcases p4 with hsk | ⟨t, hsk, h1, h2⟩
    · have := hEval sPre p1 hsk (by rw [p2]; rfl)
      rw [stepLine, hsk]
      exact this
    · have ht : t = pre.length := by omega
      subst ht
      have hgoal := hEval
        ⟨sPre.startline, sPre.endline, sPre.explicitFlag, sPre.initIndent, none⟩
        p1 rfl (by show sPre.endline = _; rw [p2]; rfl)
      rw [stepLine, hsk]
      show (if pre.length = pre.length then
        stepEval ps1 pre.length lF
          ⟨sPre.startline, sPre.endline, sPre.explicitFlag, sPre.initIndent, none⟩
        else sPre) = _
      rw [if_pos rfl]
      exact hgoal
  show locLoop ps1 (0 + pre.length) (lF :: suf) sPre = _
  have hz : 0 + pre.length = pre.length := by omega
  rw [hz]
  show locLoop ps1 (pre.length + 1) suf (stepLine ps1 pre.length lF sPre) = _
  rw [hstep]

/-! ## Sanity checks against the doctest of `_find_insert_points` -/

example :
    findInsertPoints [0, 1, 3, 4, 5]
      ["preserved1 = True", "if True:", "    # <AUTOGEN_INIT>",
       "    clobbered2 = True", "    # </AUTOGEN_INIT>", "preserved3 = True"] =
      some (3, 4, "    ") := by decide

example :
    findInsertPoints [0, 1, 2]
      ["preserved1 = True", "__version__ = " ++ ⟨[sq]⟩ ++ "1.0" ++ ⟨[sq]⟩,
       "clobbered2 = True"] = some (2, 3, "") := by decide

example : findInsertPoints [] [] = some (0, 0, "") := by decide

/-- Unfolding of `_find_insert_points` through its loop. -/
theorem findInsertPoints_eq (ps1 : List Nat) (lines : List String) :
    findInsertPoints ps1 lines =
      if (locLoop ps1 0 lines (startState lines)).startline ≤
          (locLoop ps1 0 lines (startState lines)).endline then
        some ((locLoop ps1 0 lines (startState lines)).startline,
          (locLoop ps1 0 lines (startState lines)).endline,
          (locLoop ps1 0 lines (startState lines)).initIndent)
      else none := rfl

/-! ## The claims -/

/-- C1, counterexample.  The claim says that with the first opening marker at
index `i = 0` and the first closing marker after it at index `j = 2`, the
locator returns `start = i + 1 = 1` and `end = j = 2` regardless of any later
marker lines.  On `['# <AUTOGEN_INIT>', '# <AUTOGEN_INIT>',
'# </AUTOGEN_INIT>']` (with the scanner reporting no statement boundaries, as
the AST-based scanner does on comment-only files) the code returns
`start = 2`: the SECOND opening marker also fires and resets `start`. -/
theorem claim_C1_counterexample :
    findInsertPoints []
      ["# <AUTOGEN_INIT>", "# <AUTOGEN_INIT>", "# </AUTOGEN_INIT>"] =
      some (2, 2, "") ∧ ¬((2 : Nat) = 0 + 1) := by
  constructor
  · decide
  · decide

/-- C1 (amended): the opening and closing marker branches are re-entered at
every marker line, so it is the LAST opening marker (index `i'`, line `li'`)
that determines `start = i' + 1` and the indent, and the LAST closing marker
after the first opening one (index `j'`) that determines `end = j'`.  Stated
here for a scan in which the boundary scanner reports no statement
boundaries (`ps1 = []`), so no line is skipped: `lF` is the first opening
marker (no opening marker occurs among the `pre` lines before it). -/
theorem claim_C1 (pre suf : List String) (lF li' lc' : String) (i' j' : Nat)
    (hpre : ∀ l ∈ pre, isOpenTag l = false)
    (hF : isOpenTag lF = true)
    (hlastO : lastTagAt isOpenTag (pre.length + 1) suf = some (i', li') ∨
      (lastTagAt isOpenTag (pre.length + 1) suf = none ∧
        i' = pre.length ∧ li' = lF))
    (hlastC : lastTagAt isCloseTag (pre.length + 1) suf = some (j', lc'))
    (hle : i' + 1 ≤ j') :
    findInsertPoints [] (pre ++ lF :: suf) = some (i' + 1, j', takeToHash li') := by
  have hreach := locLoop_open_reach [] pre lF suf (by simp)
    (by intro idx a b h; cases h) rfl hpre hF
  have hexp := locLoop_explicit [] suf (pre.length + 1)
    ⟨pre.length + 1, (pre ++ lF :: suf).length, true, takeToHash lF, none⟩ rfl rfl
  rw [findInsertPoints_eq, hreach, hexp]
  rcases hlastO with hO | ⟨hO, hi, hli⟩
  · simp only [hO, hlastC]
    rw [if_pos hle]
  · subst hi hli
    simp only [hO, hlastC]
    rw [if_pos hle]

/-- C1, witness for the amended claim: two opening markers followed by a
closing one; the last opening marker (index 1) wins. -/
theorem claim_C1_witness :
    findInsertPoints []
      ["# <AUTOGEN_INIT>", "# <AUTOGEN_INIT>", "x", "# </AUTOGEN_INIT>"] =
      some (1 + 1, 3, takeToHash "# <AUTOGEN_INIT>") :=
  claim_C1 [] ["# <AUTOGEN_INIT>", "x", "# </AUTOGEN_INIT>"]
    "# <AUTOGEN_INIT>" "# <AUTOGEN_INIT>" "# </AUTOGEN_INIT>" 1 3
    (by intro l hl; cases hl) (by decide)
    (Or.inl (by decide)) (by decide) (by decide)

/-- C2, counterexample.  The file `[\x27\x27\x27, '# <AUTOGEN_INIT>',
'# </AUTOGEN_INIT>', 'z\x27\x27\x27', 'x = 1']` contains exactly one opening
marker line (index 1) and one closing marker line (index 2), but the marker
pair sits inside a triple-quoted string: the statement starting at line 0
spans lines 0-3, so the scanner reports boundaries `[0, 4]` and the locator
skips from line 0 straight to line 4, never evaluating the markers.  It
returns `(4, 5)`, not the claimed `(i + 1, j) = (2, 2)`. -/
theorem claim_C2_counterexample :
    findInsertPoints [0, 4]
      [tripleSq, "# <AUTOGEN_INIT>", "# </AUTOGEN_INIT>", "z" ++ tripleSq,
        "x = 1"] = some (4, 5, "") ∧
      ¬((4 : Nat) = 1 + 1 ∧ (5 : Nat) = 2) := by
  constructor
  · decide
  · decide

/-- C2 (amended): the marker round-trip holds provided the boundary
information never skips over the opening marker: the boundary list is
strictly increasing, no statement starting before the opening marker
continues past it, and the marker line itself is not a reported boundary.
With exactly one opening marker `lO` (the `pre` lines before it, the `mid`
lines between the markers and the `post` lines after the closing marker `lC`
contain no markers), the locator returns `(i + 1, j, indent)` with
`i = pre.length`, `j = pre.length + 1 + mid.length`, and the merge keeps both
marker lines verbatim, replacing exactly the body between them. -/
theorem claim_C2 (ps1 : List Nat) (pre mid post : List String) (lO lC g : String)
    (hchain : List.Chain' (· < ·) ps1)
    (hjump : ∀ idx a b, ps1.get? idx = some a → ps1.get? (idx + 1) = some b →
      a < pre.length → b ≤ pre.length)
    (hmem : pre.length ∉ ps1)
    (hO : isOpenTag lO = true) (hC : isCloseTag lC = true)
    (hpre : ∀ l ∈ pre, isOpenTag l = false ∧ isCloseTag l = false)
    (hmid : ∀ l ∈ mid, isOpenTag l = false ∧ isCloseTag l = false)
    (hpost : ∀ l ∈ post, isOpenTag l = false ∧ isCloseTag l = false) :
    findInsertPoints ps1 (pre ++ lO :: (mid ++ lC :: post)) =
      some (pre.length + 1, pre.length + 1 + mid.length, takeToHash lO) ∧
    insertAutogenText ps1 (pre ++ lO :: (mid ++ lC :: post)) g =
      some (pyRstrip (String.join
        ((pre ++ [lO]) ++ [mkinitIndent g (takeToHash lO) ++ "\n"] ++
          (lC :: post))) ++ "\n") := by
  have hCO : isOpenTag lC = false := by
    rcases hc : isOpenTag lC with _ | _
    · rfl
    · exact absurd ⟨hc, hC⟩ (open_close_exclusive lC)
  have hreach := locLoop_open_reach ps1 pre lO (mid ++ lC :: post) hchain hjump
    (pyIndex_none ps1 pre.length hmem) (fun l hl => (hpre l hl).1) hO
  have hexp := locLoop_explicit ps1 (mid ++ lC :: post) (pre.length + 1)
    ⟨pre.length + 1, (pre ++ lO :: (mid ++ lC :: post)).length, true,
      takeToHash lO, none⟩ rfl rfl
  have hnoO : lastTagAt isOpenTag (pre.length + 1) (mid ++ lC :: post) = none := by
    refine lastTagAt_none isOpenTag _ _ ?_
    intro l hl
    rcases List.mem_append.mp hl with hl | hl
    · exact (hmid l hl).1
    · rcases List.mem_cons.mp hl with rfl | hl
      · exact hCO
      · exact (hpost l hl).1
  have hlastC : lastTagAt isCloseTag (pre.length + 1) (mid ++ lC :: post) =
      some (pre.length + 1 + mid.length, lC) := by
    rw [lastTagAt_append]
    have hclast : lastTagAt isCloseTag ((pre.length + 1) + mid.length)
        (lC :: post) = some (pre.length + 1 + mid.length, lC) := by
      have hpostC : lastTagAt isCloseTag ((pre.length + 1) + mid.length + 1)
          post = none :=
        lastTagAt_none isCloseTag _ _ (fun l hl => (hpost l hl).2)
      show (match lastTagAt isCloseTag ((pre.length + 1) + mid.length + 1) post with
        | some r => some r
        | none => if isCloseTag lC = true
            then some ((pre.length + 1) + mid.length, lC) else none) = _
      rw [hpostC]
      simp [hC]
    rw [hclast]
  have hfind : findInsertPoints ps1 (pre ++ lO :: (mid ++ lC :: post)) =
      some (pre.length + 1, pre.length + 1 + mid.length, takeToHash lO) := by
    rw [findInsertPoints_eq, hreach, hexp]
    simp only [hnoO, hlastC]
    rw [if_pos (by omega)]
  refine ⟨hfind, ?_⟩
  rw [insertAutogenText_eq ps1 _ g _ _ _ hfind]
  have htake : (pre ++ lO :: (mid ++ lC :: post)).take (pre.length + 1) =
      pre ++ [lO] := by
    have := @List.take_append _ pre (lO :: (mid ++ lC :: post)) 1
    rw [this]
    rfl
  have hdrop : (pre ++ lO :: (mid ++ lC :: post)).drop
      (pre.length + 1 + mid.length) = lC :: post := by
    have h1 : pre.length + 1 + mid.length = pre.length + (1 + mid.length) := by
      omega
    rw [h1, @List.drop_append _ pre (lO :: (mid ++ lC :: post))]
    have h2 : 1 + mid.length = mid.length + 1 := by omega
    rw [h2]
    show (mid ++ lC :: post).drop mid.length = lC :: post
    exact List.drop_left mid (lC :: post)
  rw [htake, hdrop]

/-- C2, witness for the amended claim: a comment line, the marker pair with
one body line, and a trailing line; the locator finds `(2, 3)` and the merge
keeps both markers and the tail. -/
theorem claim_C2_witness :
    findInsertPoints []
      ["#hello\n", "# <AUTOGEN_INIT>\n", "old\n", "# </AUTOGEN_INIT>\n",
        "tail\n"] = some (1 + 1, 1 + 1 + 1, takeToHash "# <AUTOGEN_INIT>\n") ∧
    insertAutogenText []
      ["#hello\n", "# <AUTOGEN_INIT>\n", "old\n", "# </AUTOGEN_INIT>\n",
        "tail\n"] "import a" =
      some (pyRstrip (String.join
        ((["#hello\n"] ++ ["# <AUTOGEN_INIT>\n"]) ++
          [mkinitIndent "import a" (takeToHash "# <AUTOGEN_INIT>\n") ++ "\n"] ++
          ("# </AUTOGEN_INIT>\n" :: ["tail\n"]))) ++ "\n") :=
  claim_C2 [] ["#hello\n"] ["old\n"] ["tail\n"] "# <AUTOGEN_INIT>\n"
    "# </AUTOGEN_INIT>\n" "import a" (by simp)
    (by intro idx a b h; cases h) (by decide) (by decide) (by decide)
    (by decide) (by decide) (by decide)

/-- C3, counterexample.  The merge is NOT idempotent for every generated
content: on an empty file with generated content `'# x'` the first merge
yields `'# x\n'`; on the second run that line matches the implicit pattern
`'#'`, is preserved, and the content is inserted again, yielding
`'# x\n# x\n'`.  (The scanner reports no boundaries on either file: the empty
file has none and a comment-only file has no AST statements.) -/
theorem claim_C3_counterexample :
    insertAutogenText [] [] "# x" = some "# x\n" ∧
    insertAutogenText [] (splitKeepNl "# x\n") "# x" = some "# x\n# x\n" ∧
    ("# x\n# x\n" : String) ≠ "# x\n" := by
  refine ⟨by decide, by decide, by decide⟩

/-- C3 (amended): the merge is idempotent provided no line of the starting
file and no line of the merged output matches an implicit preserve pattern
(this also excludes marker lines, which begin with `'#'`): both runs then
locate the whole file, `(0, len(lines), '')`, and produce the same text
regardless of the boundary information of either run. -/
theorem claim_C3 (ps1a ps1b : List Nat) (lines : List String) (g out : String)
    (h1 : ∀ l ∈ lines, matchesImplicit l = false)
    (hout : insertAutogenText ps1a lines g = some out)
    (h2 : ∀ l ∈ splitKeepNl out, matchesImplicit l = false) :
    insertAutogenText ps1b (splitKeepNl out) g = some out := by
  have e1 := findInsertPoints_noMatch ps1a lines h1
  have e2 := findInsertPoints_noMatch ps1b (splitKeepNl out) h2
  rw [insertAutogenText_eq ps1a lines g 0 lines.length "" e1] at hout
  rw [insertAutogenText_eq ps1b _ g 0 (splitKeepNl out).length "" e2]
  have hx : ∀ L : List String,
      L.take 0 ++ [mkinitIndent g "" ++ "\n"] ++ L.drop L.length =
        [mkinitIndent g "" ++ "\n"] := by
    intro L
    simp
  rw [hx] at hout
  rw [hx]
  exact hout

/-- C3, witness for the amended claim: a marker-free, pattern-free file
merged with import content; re-merging the output reproduces it. -/
theorem claim_C3_witness :
    insertAutogenText [] (splitKeepNl "import a\n") "import a" =
      some "import a\n" :=
  claim_C3 [] [] ["x = 1\n"] "import a" "import a\n"
    (by decide) (by decide) (by decide)

/-- C4, counterexample.  File `['x = 1', '__version__ = \x27\x27\x27', '#a',
'b c \x27\x27\x27']` with boundaries `[0, 1]` (the assignment at line 1 spans
lines 1-3 and is the last statement): the claim says the returned `start`
equals `end = len(lines) = 4`.  The code does set `start = end` at line 1,
but line 2 (`'#a'`, textually inside the string) matches the implicit
pattern `'#'` and resets `start = 3`: the returned value is `(3, 4)`, with
`start` strictly inside the multi-line statement. -/
theorem claim_C4_counterexample :
    findInsertPoints [0, 1]
      ["x = 1", "__version__ = " ++ tripleSq, "#a", "b c " ++ tripleSq] =
      some (3, 4, "") ∧ ¬((3 : Nat) = 4) := by
  refine ⟨by decide, by decide⟩

/-- C4 (amended): for a marker-free file whose line `lB` (index
`b = pre.length`) matches an implicit pattern and is a reported statement
boundary, with strictly increasing in-file boundaries:
if the scanner reports a next boundary `b'`, the locator returns and its
`start` is at least `b'` — it never lands strictly inside the skipped
statement; if `lB` starts the last statement, then immediately after the
scan has processed line `b` the state has `start = end = len(lines)` (the
final returned `start` can be lowered again by later lines of that statement
that textually match a pattern, as the counterexample shows). -/
theorem claim_C4 (ps1 : List Nat) (pre suf : List String) (lB : String) (idx : Nat)
    (hchain : List.Chain' (· < ·) ps1)
    (hmemL : ∀ k ∈ ps1, k < (pre ++ lB :: suf).length)
    (hnoopen : ∀ l ∈ pre ++ lB :: suf, isOpenTag l = false)
    (himpl : matchesImplicit lB = true)
    (hidx : pyIndex pre.length ps1 = some idx) :
    (∀ b', ps1.get? (idx + 1) = some b' →
      ∃ st ind, findInsertPoints ps1 (pre ++ lB :: suf) =
        some (st, (pre ++ lB :: suf).length, ind) ∧ b' ≤ st) ∧
    (ps1.get? (idx + 1) = none →
      (locLoop ps1 0 (pre ++ [lB]) (startState (pre ++ lB :: suf))).startline =
        (pre ++ lB :: suf).length ∧
      (locLoop ps1 0 (pre ++ [lB]) (startState (pre ++ lB :: suf))).endline =
        (pre ++ lB :: suf).length) := by
  have hLlen : (pre ++ lB :: suf).length = pre.length + (suf.length + 1) := by
    simp
  have hgb : ps1.get? idx = some pre.length := pyIndex_get? ps1 pre.length idx hidx
  have hjump : ∀ idx0 a c, ps1.get? idx0 = some a → ps1.get? (idx0 + 1) = some c →
      a < pre.length → c ≤ pre.length := by
    intro idx0 a c h1 h2 hab
    have hpos : idx0 < idx := chain'_lt_pos_lt hchain h1 hgb hab
    exact chain'_lt_get?_mono hchain (by omega) h2 hgb
  have hBopen : isOpenTag lB = false :=
    hnoopen lB (List.mem_append_right pre (List.mem_cons_self lB suf))
  obtain ⟨p1, p2, p3, p4⟩ :=
    locLoop_prefix ps1 pre.length hchain hjump pre 0
      (startState (pre ++ lB :: suf))
      (fun l hl => hnoopen l (List.mem_append_left _ hl)) rfl (Or.inl rfl)
      (by omega)
  set sP := locLoop ps1 0 pre (startState (pre ++ lB :: suf)) with hsP
  have hpreEnd : sP.endline = (pre ++ lB :: suf).length := by
    rw [p2]
    rfl
  constructor
  · -- a next boundary b' exists: skip to it, then stay at or above it
    intro b' hsucc
    have hg2 : ps1[idx + 1]? = some b' := by simpa using hsucc
    have hb'mem : b' ∈ ps1 := List.get?_mem hsucc
    have hb'L : b' < (pre ++ lB :: suf).length := hmemL b' hb'mem
    have hEval : ∀ s : LocState, s.explicitFlag = false → s.skipto = none →
        s.endline = (pre ++ lB :: suf).length →
        stepEval ps1 pre.length lB s =
          ⟨b', (pre ++ lB :: suf).length, s.explicitFlag, s.initIndent,
            some b'⟩ := by
      intro s hex hsk hend
      simp [stepEval, hex, himpl, hidx, hg2, hBopen, hend]
    have hstep : stepLine ps1 pre.length lB sP =
        ⟨b', (pre ++ lB :: suf).length, sP.explicitFlag, sP.initIndent,
          some b'⟩ := by
      rcases p4 with hsk | ⟨t, hsk, h1, h2⟩
      · have h3 := hEval sP p1 hsk hpreEnd
        rw [stepLine, hsk]
        exact h3
      · have ht : t = pre.length := by omega
        subst ht
        have h3 := hEval ⟨sP.startline, sP.endline, sP.explicitFlag,
          sP.initIndent, none⟩ p1 rfl hpreEnd
        rw [stepLine, hsk]
        show (if pre.length = pre.length then
          stepEval ps1 pre.length lB
            ⟨sP.startline, sP.endline, sP.explicitFlag, sP.initIndent, none⟩
          else sP) = _
        rw [if_pos rfl]
        exact h3
    obtain ⟨b1, b2, b3⟩ :=
      locLoop_bound ps1 (pre ++ lB :: suf).length b' hchain hmemL
        (le_of_lt hb'L) suf (pre.length + 1)
        ⟨b', (pre ++ lB :: suf).length, sP.explicitFlag, sP.initIndent,
          some b'⟩
        (fun l hl => hnoopen l
          (List.mem_append_right pre (List.mem_cons_of_mem lB hl)))
        p1 rfl (Nat.le_refl b') (le_of_lt hb'L)
        (fun hc => by cases hc) (fun t ht => by cases ht; exact Nat.le_refl b')
        (by omega)
    have hfull : locLoop ps1 0 (pre ++ lB :: suf)
        (startState (pre ++ lB :: suf)) =
        locLoop ps1 (pre.length + 1) suf
          (stepLine ps1 pre.length lB sP) := by
      rw [locLoop_append ps1 pre (lB :: suf) 0 (startState (pre ++ lB :: suf))]
      have hz : 0 + pre.length = pre.length := by omega
      rw [hz, ← hsP]
      rfl
    rw [findInsertPoints_eq, hfull, hstep]
    refine ⟨(locLoop ps1 (pre.length + 1) suf
        ⟨b', (pre ++ lB :: suf).length, sP.explicitFlag, sP.initIndent,
          some b'⟩).startline,
      (locLoop ps1 (pre.length + 1) suf
        ⟨b', (pre ++ lB :: suf).length, sP.explicitFlag, sP.initIndent,
          some b'⟩).initIndent, ?_, b2⟩
    rw [b1, if_pos b3]
  · -- lB starts the last statement: the state right after line b
    intro hsucc
    have hg2 : ps1[idx + 1]? = none := by simpa using hsucc
    have hEval : ∀ s : LocState, s.explicitFlag = false → s.skipto = none →
        s.endline = (pre ++ lB :: suf).length →
        stepEval ps1 pre.length lB s =
          ⟨(pre ++ lB :: suf).length, (pre ++ lB :: suf).length,
            s.explicitFlag, s.initIndent, none⟩ := by
      intro s hex hsk hend
      simp [stepEval, hex, himpl, hidx, hg2, hBopen, hend, hsk]
    have hstep : stepLine ps1 pre.length lB sP =
        ⟨(pre ++ lB :: suf).length, (pre ++ lB :: suf).length,
          sP.explicitFlag, sP.initIndent, none⟩ := by
      rcases p4 with hsk | ⟨t, hsk, h1, h2⟩
      · have h3 := hEval sP p1 hsk hpreEnd
        rw [stepLine, hsk]
        exact h3
      · have ht : t = pre.length := by omega
        subst ht
        have h3 := hEval ⟨sP.startline, sP.endline, sP.explicitFlag,
          sP.initIndent, none⟩ p1 rfl hpreEnd
        rw [stepLine, hsk]
        show (if pre.length = pre.length then
          stepEval ps1 pre.length lB
            ⟨sP.startline, sP.endline, sP.explicitFlag, sP.initIndent, none⟩
          else sP) = _
        rw [if_pos rfl]
        exact h3
    have hfull : locLoop ps1 0 (pre ++ [lB]) (startState (pre ++ lB :: suf)) =
        stepLine ps1 pre.length lB sP := by
      rw [locLoop_append ps1 pre [lB] 0 (startState (pre ++ lB :: suf))]
      have hz : 0 + pre.length = pre.length := by omega
      rw [hz, ← hsP]
      rfl
    rw [hfull, hstep]
    exact ⟨rfl, rfl⟩

/-- C4, witness for the amended claim: `__version__ = (` spans two lines
(boundaries `[0, 2]`), the skip lands on line 2 and `start = 2 ≥ b' = 2`. -/
theorem claim_C4_witness :
    ∃ st ind, findInsertPoints [0, 2] ["__version__ = (", ")", "x = 1"] =
      some (st, (["__version__ = (", ")", "x = 1"] : List String).length, ind) ∧
      2 ≤ st :=
  (claim_C4 [0, 2] [] [")", "x = 1"] "__version__ = (" 0
    (by simp [List.chain'_cons]) (by decide) (by decide) (by decide)
    (by decide)).1 2 (by decide)

/-- C5, counterexample.  `_indent` right-strips EVERY line of the generated
content, so a content line with trailing whitespace is modified even with an
empty indent: `_indent('a ', '')` is `'a'`, not `'' + 'a '`. -/
theorem claim_C5_counterexample :
    mkinitIndent "a " "" = "a" ∧ ("a" : String) ≠ "" ++ "a " := by
  refine ⟨by decide, by decide⟩

/-- C5 (amended): the merge inserts the generated block linewise with the
indent prefix, but each output line is the indent prefix concatenated with
the corresponding content line AND right-stripped of trailing whitespace (so
lines without trailing whitespace are inserted verbatim after indentation,
and blank lines come out empty). -/
theorem claim_C5 (text ind : String) (hind : '\n' ∉ ind.data) :
    pySplitNl (mkinitIndent text ind) =
      (pySplitNl text).map (fun l => pyRstrip (ind ++ l)) :=
  mkinitIndent_lines text ind hind

/-- C5, witness: three content lines (one blank, one with a trailing blank)
indented by two spaces. -/
theorem claim_C5_witness :
    pySplitNl (mkinitIndent "a\n\nb " "  ") =
      (pySplitNl "a\n\nb ").map (fun l => pyRstrip ("  " ++ l)) :=
  claim_C5 "a\n\nb " "  " (by decide)

/-- C6: the merged output is
`lines[0:start] ++ [indented content + newline] ++ lines[end:]`, joined and
right-stripped to exactly one trailing newline with no other trailing
whitespace; and an empty file with content `'import a\nimport b'` yields
exactly `'import a\nimport b\n'`. -/
theorem claim_C6 :
    (∀ (ps1 : List Nat) (lines : List String) (g : String) (st en : Nat)
        (ind : String), findInsertPoints ps1 lines = some (st, en, ind) →
      insertAutogenText ps1 lines g = some (pyRstrip (String.join
        (lines.take st ++ [mkinitIndent g ind ++ "\n"] ++ lines.drop en)) ++
          "\n")) ∧
    (∀ (ps1 : List Nat) (lines : List String) (g out : String),
      insertAutogenText ps1 lines g = some out →
      ∃ t, out.data = t ++ ['\n'] ∧ pyRstripChars t = t) ∧
    insertAutogenText [] [] "import a\nimport b" =
      some "import a\nimport b\n" := by
  refine ⟨?_, ?_, by decide⟩
  · intro ps1 lines g st en ind h
    exact insertAutogenText_eq ps1 lines g st en ind h
  · intro ps1 lines g out h
    rcases hf : findInsertPoints ps1 lines with _ | ⟨st, en, ind⟩
    · unfold insertAutogenText at h
      rw [hf] at h
      cases h
    · rw [insertAutogenText_eq ps1 lines g st en ind hf] at h
      cases h
      refine ⟨pyRstripChars (String.join
        (lines.take st ++ [mkinitIndent g ind ++ "\n"] ++
          lines.drop en)).data, ?_, rstripChars_idem _⟩
      rw [String.data_append]
      rfl

/-- C6, witness: a one-line file wholly replaced; the merge is exactly the
splice-join-normalize of the claim. -/
theorem claim_C6_witness :
    insertAutogenText [] ["x = 1\n"] "import a" =
      some (pyRstrip (String.join ((["x = 1\n"] : List String).take 0 ++
        [mkinitIndent "import a" "" ++ "\n"] ++
        (["x = 1\n"] : List String).drop 1)) ++ "\n") :=
  claim_C6.1 [] ["x = 1\n"] "import a" 0 1 "" (by decide)

/-- C7: when the scan ends with `startline > endline` the embedded locator
yields `none` (the `assert startline <= endline` of the source fires), and a
returned triple never has `start > end`. -/
theorem claim_C7 (ps1 : List Nat) (lines : List String) :
    ((locLoop ps1 0 lines (startState lines)).endline <
        (locLoop ps1 0 lines (startState lines)).startline →
      findInsertPoints ps1 lines = none) ∧
    (∀ st en ind, findInsertPoints ps1 lines = some (st, en, ind) → st ≤ en) := by
  constructor
  · intro h
    rw [findInsertPoints_eq, if_neg (by omega)]
  · intro st en ind h
    rw [findInsertPoints_eq] at h
    by_cases hle : (locLoop ps1 0 lines (startState lines)).startline ≤
        (locLoop ps1 0 lines (startState lines)).endline
    · rw [if_pos hle] at h
      cases h
      exact hle
    · rw [if_neg hle] at h
      cases h

/-- C7, witness: an opening marker after the closing one leaves
`start = 3 > end = 1` and the locator refuses (returns `none`). -/
theorem claim_C7_witness :
    (locLoop [] 0 ["# <AUTOGEN_INIT>", "# </AUTOGEN_INIT>", "# <AUTOGEN_INIT>"]
        (startState ["# <AUTOGEN_INIT>", "# </AUTOGEN_INIT>",
          "# <AUTOGEN_INIT>"])).endline <
      (locLoop [] 0 ["# <AUTOGEN_INIT>", "# </AUTOGEN_INIT>", "# <AUTOGEN_INIT>"]
        (startState ["# <AUTOGEN_INIT>", "# </AUTOGEN_INIT>",
          "# <AUTOGEN_INIT>"])).startline ∧
    findInsertPoints []
      ["# <AUTOGEN_INIT>", "# </AUTOGEN_INIT>", "# <AUTOGEN_INIT>"] = none :=
  ⟨by decide,
    (claim_C7 [] ["# <AUTOGEN_INIT>", "# </AUTOGEN_INIT>",
      "# <AUTOGEN_INIT>"]).1 (by decide)⟩

/-- Each evaluated line either keeps `endline` or sets it to the line's own
number. -/
theorem stepEval_endline (ps1 : List Nat) (n : Nat) (l : String) (s : LocState) :
    (stepEval ps1 n l s).endline = s.endline ∨ (stepEval ps1 n l s).endline = n := by
  simp only [stepEval]
  repeat' split
  all_goals simp

/-- `endline` never exceeds the file length during the scan. -/
theorem locLoop_endline_le (ps1 : List Nat) (L : Nat) :
    ∀ (rest : List String) (n : Nat) (s : LocState),
      s.endline ≤ L → n + rest.length ≤ L →
      (locLoop ps1 n rest s).endline ≤ L := by
  intro rest
  induction rest with
  | nil => intro n s h _; exact h
  | cons l rest ih =>
    intro n s h hbnd
    have hn : n < L := by
      simp only [List.length_cons] at hbnd
      omega
    have hstep : (stepLine ps1 n l s).endline ≤ L := by
      unfold stepLine
      rcases hsk : s.skipto with _ | t
      · show (stepEval ps1 n l s).endline ≤ L
        rcases stepEval_endline ps1 n l s with he | he <;> omega
      · show (if n = t then stepEval ps1 n l { s with skipto := none }
            else s).endline ≤ L
        by_cases hnt : n = t
        · rw [if_pos hnt]
          have hR : ({ s with skipto := none } : LocState).endline = s.endline := rfl
          rcases stepEval_endline ps1 n l { s with skipto := none } with he | he <;>
            omega
        · rw [if_neg hnt]
          exact h
    show (locLoop ps1 (n + 1) rest (stepLine ps1 n l s)).endline ≤ L
    exact ih (n + 1) (stepLine ps1 n l s) hstep
      (by simp only [List.length_cons] at hbnd; omega)

/-- C8: whenever the locator returns (and the scanner reports only in-file
boundary indices), the triple satisfies `0 ≤ start ≤ end ≤ len(lines)`. -/
theorem claim_C8 (ps1 : List Nat) (lines : List String)
    (hscan : ∀ k ∈ ps1, k < lines.length) (st en : Nat) (ind : String)
    (h : findInsertPoints ps1 lines = some (st, en, ind)) :
    0 ≤ st ∧ st ≤ en ∧ en ≤ lines.length := by
  have hend : (locLoop ps1 0 lines (startState lines)).endline ≤ lines.length :=
    locLoop_endline_le ps1 lines.length lines 0 (startState lines)
      (Nat.le_refl _) (by omega)
  rw [findInsertPoints_eq] at h
  by_cases hle : (locLoop ps1 0 lines (startState lines)).startline ≤
      (locLoop ps1 0 lines (startState lines)).endline
  · rw [if_pos hle] at h
    cases h
    exact ⟨Nat.zero_le _, hle, hend⟩
  · rw [if_neg hle] at h
    cases h

/-- C8, witness: a file with one boundary; the returned triple is within
bounds. -/
theorem claim_C8_witness :
    (∀ k ∈ ([0] : List Nat), k < (["x = 1"] : List String).length) ∧
    (0 ≤ 0 ∧ 0 ≤ 1 ∧ 1 ≤ (["x = 1"] : List String).length) :=
  ⟨by decide, claim_C8 [0] ["x = 1"] (by decide) 0 1 "" (by decide)⟩

/-- C9: on `['#comment', 'x = 1', 'y = 2']` with every line a reported
statement boundary and no implicit pattern matching `'x = 1'`, the locator
preserves only the leading comment: `start = 1`, `end = 3`. -/
theorem claim_C9 :
    findInsertPoints [0, 1, 2] ["#comment", "x = 1", "y = 2"] =
      some (1, 3, "") := by
  decide

/-- C10, counterexample.  The indent is recaptured at EVERY opening marker
line, so with a first opening marker indented by 4 spaces and a second one
indented by 2, the captured indent is the 2 spaces of the second marker, not
the 4 spaces of the first. -/
theorem claim_C10_counterexample :
    findInsertPoints []
      ["    # <AUTOGEN_INIT>", "  # <AUTOGEN_INIT>", "# </AUTOGEN_INIT>"] =
      some (2, 2, "  ") ∧ ("  " : String) ≠ "    " := by
  refine ⟨by decide, by decide⟩

/-- C10 (amended): for a file with a UNIQUE opening marker line preceded by
exactly 4 spaces (scanner reporting no boundaries, so nothing skips over the
marker), the locator captures `indent = '    '`, and the merge prefixes every
line of the generated block with exactly those 4 spaces, right-stripped — so
non-blank lines without trailing whitespace get exactly the 4-space prefix
and blank generated lines come out empty, free of trailing whitespace. -/
theorem claim_C10 (pre suf : List String) (lF : String)
    (hpre : ∀ l ∈ pre, isOpenTag l = false)
    (hsuf : ∀ l ∈ suf, isOpenTag l = false)
    (hF : isOpenTag lF = true) (hind : takeToHash lF = "    ") :
    (∃ en, findInsertPoints [] (pre ++ lF :: suf) =
      some (pre.length + 1, en, "    ")) ∧
    (∀ g, pySplitNl (mkinitIndent g "    ") =
      (pySplitNl g).map (fun l => pyRstrip ("    " ++ l))) ∧
    pyRstrip ("    " ++ "") = "" := by
  refine ⟨?_, fun g => mkinitIndent_lines g "    " (by decide), by decide⟩
  have hreach := locLoop_open_reach [] pre lF suf (by simp)
    (by intro idx a b h; cases h) rfl hpre hF
  have hexp := locLoop_explicit [] suf (pre.length + 1)
    ⟨pre.length + 1, (pre ++ lF :: suf).length, true, takeToHash lF, none⟩ rfl rfl
  have hnoO : lastTagAt isOpenTag (pre.length + 1) suf = none :=
    lastTagAt_none isOpenTag suf (pre.length + 1) hsuf
  rw [findInsertPoints_eq, hreach, hexp, hind]
  rcases hC : lastTagAt isCloseTag (pre.length + 1) suf with _ | ⟨k, lk⟩
  · refine ⟨(pre ++ lF :: suf).length, ?_⟩
    simp only [hnoO, hC]
    rw [if_pos (by simp only [List.length_append, List.length_cons]; omega)]
  · have hk : pre.length + 1 ≤ k :=
      lastTagAt_ge isCloseTag suf (pre.length + 1) k lk hC
    refine ⟨k, ?_⟩
    simp only [hnoO, hC]
    rw [if_pos hk]

/-- C10, witness: a unique opening marker indented by 4 spaces; the locator
returns indent `'    '` and the merge indents linewise. -/
theorem claim_C10_witness :
    (∃ en, findInsertPoints []
        (([] : List String) ++ "    # <AUTOGEN_INIT>\n" ::
          ["x\n", "# </AUTOGEN_INIT>\n"]) =
        some (([] : List String).length + 1, en, "    ")) ∧
    (∀ g, pySplitNl (mkinitIndent g "    ") =
      (pySplitNl g).map (fun l => pyRstrip ("    " ++ l))) ∧
    pyRstrip ("    " ++ "") = "" :=
  claim_C10 [] ["x\n", "# </AUTOGEN_INIT>\n"] "    # <AUTOGEN_INIT>\n"
    (by intro l hl; cases hl) (by decide) (by decide) (by decide)

end Mkinit
